import Mathlib

/-!
# Verification of the goofi-pipe node-graph runtime core

Shallow embedding of `src/goofi/message.py` (the Message protocol) and
`src/goofi/manager.py` (the `NodeContainer` and `Manager` classes), together
with proofs about the embedded operations.

The `Connection` class and the `NodeRef.terminate` operation are imported by
the manager but their module (`goofi/connection.py`, `goofi/node_helpers.py`)
is not part of the source tree under verification; those two operations are
modelled from the specification (see the doc comments on `ManagerState.sendOn`
and `terminateRef`).
-/

namespace Goofi

/-! ## The embedded program: data model and operations -/

/-- `MessageType` enumeration from `message.py`. -/
inductive MessageType
  | ADD_OUTPUT_PIPE
  | REMOVE_OUTPUT_PIPE
  | DATA
  | CLEAR_DATA
  | PING
  | PONG
  | TERMINATE
deriving DecidableEq

/-- Runtime values that can appear in a message `content` dict.  The Python
code distinguishes them by `isinstance` checks against `str`, `Connection`
and `Data`; `other` stands for a value of any further Python type. -/
inductive Value
  | str (s : String)
  | conn (id : Nat)
  | data (d : Nat)
  | other (n : Nat)
deriving DecidableEq

/-- The Python classes a content field is `isinstance`-checked against. -/
inductive FieldType
  | tStr
  | tConn
  | tData
deriving DecidableEq

/-- Python `isinstance(v, field_type)` for the three field types used by
`Message.require_fields`. -/
def Value.isinstance : Value → FieldType → Bool
  | .str _, .tStr => true
  | .conn _, .tConn => true
  | .data _, .tData => true
  | _, _ => false

/-- A Python dict `content`, as an insertion-ordered association list with
the first binding of a key being its value. -/
abbrev Content := List (String × Value)

/-- Dict key lookup, `content[field]` / `field in content`. -/
def lookupField : Content → String → Option Value
  | [], _ => none
  | (k, v) :: rest, f => if k = f then some v else lookupField rest f

/-- A constructed `Message` (dataclass from `message.py`). -/
structure Message where
  type : MessageType
  content : Content
deriving DecidableEq

/-- Error text of `raise ValueError(f"Message content must contain field {field}.")`. -/
def missingFieldMsg (f : String) : String :=
  "Message content must contain field " ++ f ++ "."

/-- Error text of the mistyped-field `ValueError` in `Message.require_fields`. -/
def wrongTypeMsg (f : String) : String :=
  "Message content field " ++ f ++ " must be of the required type."

/-- `Message.require_fields`: checks each required field in order, raising a
`ValueError` on the first missing or mistyped field. -/
def require_fields (content : Content) : List (String × FieldType) → Except String Unit
  | [] => .ok ()
  | (f, t) :: rest =>
    match lookupField content f with
    | none => .error (missingFieldMsg f)
    | some v =>
      if v.isinstance t then require_fields content rest
      else .error (wrongTypeMsg f)

/-- The required-fields dispatch in `Message.__post_init__` (the
`if`/`elif` chain on `self.type`). -/
def requiredFields : MessageType → List (String × FieldType)
  | .ADD_OUTPUT_PIPE =>
      [("slot_name_out", .tStr), ("slot_name_in", .tStr), ("node_connection", .tConn)]
  | .REMOVE_OUTPUT_PIPE =>
      [("slot_name_out", .tStr), ("slot_name_in", .tStr), ("node_connection", .tConn)]
  | .DATA => [("slot_name", .tStr), ("data", .tData)]
  | .CLEAR_DATA => [("slot_name", .tStr)]
  | _ => []

/-- Constructing a `Message(type, content)`: `__post_init__` validates the
content and the dataclass value exists only if validation passes. -/
def mkMessage (type : MessageType) (content : Content) : Except String Message :=
  match require_fields content (requiredFields type) with
  | .error e => .error e
  | .ok _ => .ok ⟨type, content⟩

/-- The spec's required-fields table from §4.1 / §6, written from the spec's
words for comparison with the code's `requiredFields`. -/
def specRequired : MessageType → List (String × FieldType)
  | .ADD_OUTPUT_PIPE =>
      [("slot_name_out", .tStr), ("slot_name_in", .tStr), ("node_connection", .tConn)]
  | .REMOVE_OUTPUT_PIPE =>
      [("slot_name_out", .tStr), ("slot_name_in", .tStr), ("node_connection", .tConn)]
  | .DATA => [("slot_name", .tStr), ("data", .tData)]
  | .CLEAR_DATA => [("slot_name", .tStr)]
  | .PING => []
  | .PONG => []
  | .TERMINATE => []

/-- The spec's validity predicate: the content carries every field that the
table requires for the type, with the required semantic type. -/
def specValid (type : MessageType) (content : Content) : Bool :=
  (specRequired type).all fun p =>
    match lookupField content p.1 with
    | some v => v.isinstance p.2
    | none => false

/-- Numeric value of a decimal digit character. -/
def digitVal (c : Char) : Nat := c.toNat - 48

/-- Decode a most-significant-first decimal digit list into a number. -/
def decDigits : List Char → Nat → Nat
  | [], acc => acc
  | c :: cs, acc => decDigits cs (acc * 10 + digitVal c)

/-- Manager-side handle to a running node; it holds the node's control
connection (`NodeRef` from `goofi/node_helpers.py`, identified here by the
id of its control connection). -/
structure NodeRef where
  connId : Nat
deriving DecidableEq

/-- The container's `_nodes` dict: insertion-ordered mapping from assigned
name to `NodeRef`. -/
structure NodeContainer where
  _nodes : List (String × NodeRef)
deriving DecidableEq

/-- The keys of the container, in insertion order. -/
def NodeContainer.names (c : NodeContainer) : List String :=
  c._nodes.map Prod.fst

/-- The `while f"{name}{idx}" in self._nodes: idx += 1` loop of
`NodeContainer.add_node`, with explicit fuel. -/
def findFresh (name : String) (ks : List String) : Nat → Nat → Nat
  | idx, 0 => idx
  | idx, fuel + 1 =>
    if (name ++ Nat.repr idx) ∈ ks then findFresh name ks (idx + 1) fuel else idx

/-- The index at which the loop of `NodeContainer.add_node` stops, starting
from `idx = 0`; `ks.length + 1` candidate indices always suffice. -/
def freshIdx (name : String) (ks : List String) : Nat :=
  findFresh name ks 0 (ks.length + 1)

/-- `NodeContainer.add_node`: picks the first free suffixed name and inserts
the node under it, returning the assigned name. -/
def NodeContainer.add_node (c : NodeContainer) (name : String) (node : NodeRef) :
    String × NodeContainer :=
  let idx := freshIdx name c.names
  (name ++ Nat.repr idx, ⟨c._nodes ++ [(name ++ Nat.repr idx, node)]⟩)

/-- State of one control connection.  `goofi/connection.py` is not part of
the sources under verification; this state is modelled from the spec §4.2:
a Link can be closed, records the messages sent on it in order, and
`peerDead` models an unreachable peer (for which `send` fails with
`LinkClosed`). -/
structure ConnState where
  closed : Bool
  sent : List Message
  peerDead : Bool
deriving DecidableEq

/-- Errors surfaced by manager operations.  `keyError` is Python's
`KeyError` (the spec's `NotFoundError`), `linkClosed` the spec's
`LinkClosed`, `valueError` Python's `ValueError` (the spec's
`ValidationError`).  `illegalState` is the spec's `IllegalStateError`; no
code path produces it. -/
inductive Err
  | keyError (name : String)
  | linkClosed
  | valueError (msg : String)
  | illegalState
deriving DecidableEq

/-- Observable effects of a manager operation, in order of occurrence. -/
inductive Event
  | sent (connId : Nat) (m : Message)
  | closedLink (connId : Nat)
deriving DecidableEq

/-- The whole manager state: the `_running` flag, the node container's
`_nodes` dict, the states of all control connections (keyed by connection
id) and a source of fresh connection ids for spawned nodes. -/
structure ManagerState where
  running : Bool
  nodes : List (String × NodeRef)
  conns : List (Nat × ConnState)
  nextConn : Nat
deriving DecidableEq

/-- Dict lookup in the connection table. -/
def lookupConn : List (Nat × ConnState) → Nat → Option ConnState
  | [], _ => none
  | (k, c) :: rest, i => if k = i then some c else lookupConn rest i

/-- Replace the state of connection `i`. -/
def setConn : List (Nat × ConnState) → Nat → ConnState → List (Nat × ConnState)
  | [], _, _ => []
  | (k, c) :: rest, i, c' =>
    if k = i then (k, c') :: setConn rest i c' else (k, c) :: setConn rest i c'

/-- Dict lookup in the node container (`self.nodes[name]`). -/
def lookupNode : List (String × NodeRef) → String → Option NodeRef
  | [], _ => none
  | (k, r) :: rest, n => if k = n then some r else lookupNode rest n

/-- `del self._nodes[name]` (removes the binding of `name`). -/
def removeEntry : List (String × NodeRef) → String → List (String × NodeRef)
  | [], _ => []
  | (k, r) :: rest, n => if k = n then rest else (k, r) :: removeEntry rest n

/-- The `Message(MessageType.TERMINATE, {})` sent on shutdown. -/
def termMsg : Message := ⟨.TERMINATE, []⟩

/-- Modelled from the spec (§4.2, `goofi/connection.py` is not in the
sources): `Connection.send` delivers the message in order on an open Link
and fails with `LinkClosed` when the Link is closed or the peer
unreachable. -/
def ManagerState.sendOn (s : ManagerState) (i : Nat) (m : Message) :
    Except Err ManagerState :=
  match lookupConn s.conns i with
  | none => .error .linkClosed
  | some c =>
    if c.closed || c.peerDead then .error .linkClosed
    else .ok { s with conns := setConn s.conns i { c with sent := c.sent ++ [m] } }

/-- Modelled from the spec (§4.2): `Connection.close` marks the Link
closed. -/
def ManagerState.closeOn (s : ManagerState) (i : Nat) : ManagerState :=
  match lookupConn s.conns i with
  | none => s
  | some c => { s with conns := setConn s.conns i { c with closed := true } }

/-- Modelled from the spec (§3/§4.4, `goofi/node_helpers.py` is not in the
sources): `NodeRef.terminate` sends `TERMINATE` then closes the connection,
tolerating an already-closed Link and swallowing a failed send (best
effort, no double-fault). -/
def terminateRef (s : ManagerState) (r : NodeRef) : ManagerState :=
  match lookupConn s.conns r.connId with
  | none => s
  | some c =>
    if c.closed then s
    else
      let c₁ := if c.peerDead then c else { c with sent := c.sent ++ [termMsg] }
      { s with conns := setConn s.conns r.connId { c₁ with closed := true } }

/-- Python's `str.lower()` (ASCII case mapping, applied characterwise). -/
def pyLower (s : String) : String := ⟨s.data.map Char.toLower⟩

/-- `Manager.add_node` (headless): resolves and spawns the node
(`create_local`, giving it a fresh control connection) and registers it in
the container under the lowercased module name (`name.lower()`). -/
def ManagerState.add_node (s : ManagerState) (name : String) :
    String × ManagerState :=
  let ref : NodeRef := ⟨s.nextConn⟩
  let (assigned, c') := NodeContainer.add_node ⟨s.nodes⟩ (pyLower name) ref
  (assigned,
    { s with
      nodes := c'._nodes
      conns := s.conns ++ [(s.nextConn, ⟨false, [], false⟩)]
      nextConn := s.nextConn + 1 })

/-- `NodeContainer.remove_node`, lifted to the manager state so that the
node's `terminate()` side effect on its connection is visible:
terminates the node and deletes its key, or raises `KeyError` if the name
is absent.  `Manager.remove_node` (headless) is exactly this call. -/
def ManagerState.remove_node (s : ManagerState) (name : String) :
    ManagerState × Option Err :=
  match lookupNode s.nodes name with
  | some r => ({ terminateRef s r with nodes := removeEntry s.nodes name }, none)
  | none => (s, some (.keyError name))

/-- The pipe-management message `Manager.add_link`/`remove_link` builds. -/
def pipeMsg (t : MessageType) (slot_out slot_in : String) (inConn : Nat) : Message :=
  ⟨t, [("slot_name_out", .str slot_out), ("slot_name_in", .str slot_in),
    ("node_connection", .conn inConn)]⟩

/-- Shared body of `Manager.add_link` and `Manager.remove_link` (headless):
looks up both nodes (raising `KeyError` on an absent name), constructs the
pipe message, and sends it on the output node's control connection. -/
def ManagerState.linkOp (s : ManagerState) (t : MessageType)
    (node_out node_in slot_out slot_in : String) :
    ManagerState × List Event × Option Err :=
  match lookupNode s.nodes node_out with
  | none => (s, [], some (.keyError node_out))
  | some rOut =>
    match lookupNode s.nodes node_in with
    | none => (s, [], some (.keyError node_in))
    | some rIn =>
      match mkMessage t
          [("slot_name_out", .str slot_out), ("slot_name_in", .str slot_in),
            ("node_connection", .conn rIn.connId)] with
      | .error e => (s, [], some (.valueError e))
      | .ok m =>
        match s.sendOn rOut.connId m with
        | .error e => (s, [], some e)
        | .ok s' => (s', [.sent rOut.connId m], none)

/-- `Manager.add_link` (headless). -/
def ManagerState.add_link (s : ManagerState)
    (node_out node_in slot_out slot_in : String) :
    ManagerState × List Event × Option Err :=
  s.linkOp .ADD_OUTPUT_PIPE node_out node_in slot_out slot_in

/-- `Manager.remove_link` (headless). -/
def ManagerState.remove_link (s : ManagerState)
    (node_out node_in slot_out slot_in : String) :
    ManagerState × List Event × Option Err :=
  s.linkOp .REMOVE_OUTPUT_PIPE node_out node_in slot_out slot_in

/-- The `for node in self.nodes:` loop of `Manager.terminate`: sends
`TERMINATE` on each node's control connection and closes it, in container
order.  There is no exception handling in the source: a failing send
propagates and aborts the loop. -/
def terminateLoop :
    ManagerState → List (String × NodeRef) → List Event →
      ManagerState × List Event × Option Err
  | s, [], evs => (s, evs, none)
  | s, (_, r) :: rest, evs =>
    match s.sendOn r.connId termMsg with
    | .error e => (s, evs, some e)
    | .ok s₁ =>
      terminateLoop (s₁.closeOn r.connId) rest
        (evs ++ [.sent r.connId termMsg, .closedLink r.connId])

/-- `Manager.terminate` (headless): clears `_running` and runs the
shutdown loop over the container. -/
def ManagerState.terminate (s : ManagerState) :
    ManagerState × List Event × Option Err :=
  let s₀ : ManagerState := { s with running := false }
  terminateLoop s₀ s₀.nodes []

/-- The event trace `Manager.terminate` produces when no send fails. -/
def termTrace : List (String × NodeRef) → List Event
  | [] => []
  | (_, r) :: rest => .sent r.connId termMsg :: .closedLink r.connId :: termTrace rest

/-- A freshly constructed headless `Manager`: running, empty container. -/
def initManager : ManagerState := ⟨true, [], [], 0⟩

/-- The four graph-mutation operations of the Manager. -/
inductive Op
  | addNode (name : String)
  | removeNode (name : String)
  | addLink (node_out node_in slot_out slot_in : String)
  | removeLink (node_out node_in slot_out slot_in : String)

/-- Run one manager operation (its state effect). -/
def applyOp (s : ManagerState) : Op → ManagerState
  | .addNode n => (s.add_node n).2
  | .removeNode n => (s.remove_node n).1
  | .addLink o i so si => (s.add_link o i so si).1
  | .removeLink o i so si => (s.remove_link o i so si).1

/-- Run a sequence of manager operations. -/
def runOps (s : ManagerState) (ops : List Op) : ManagerState :=
  ops.foldl applyOp s

/-- A node reference is live when its control connection exists, is open,
and has never been sent `TERMINATE`. -/
def nodeLive (conns : List (Nat × ConnState)) (r : NodeRef) : Bool :=
  match lookupConn conns r.connId with
  | some c => !c.closed && !(c.sent.any fun m => decide (m = termMsg))
  | none => false

/-- The container live-reference invariant: every key refers to a live
node. -/
def liveInv (s : ManagerState) : Bool :=
  s.nodes.all fun p => nodeLive s.conns p.2

/-- Inductive strengthening of the live-reference invariant: all registered
nodes are live, all connection ids are below the fresh-id source, and
distinct container entries own distinct connections. -/
def Inv (s : ManagerState) : Prop :=
  (∀ p ∈ s.nodes, nodeLive s.conns p.2 = true) ∧
  (∀ q ∈ s.conns, q.1 < s.nextConn) ∧
  (s.nodes.map fun p => p.2.connId).Nodup

/-! ## Theorems -/

theorem requiredFields_eq_specRequired (t : MessageType) :
    requiredFields t = specRequired t := by
  cases t <;> rfl

theorem require_fields_ok_iff (content : Content) (l : List (String × FieldType)) :
    require_fields content l = .ok () ↔
      ∀ p ∈ l, ∃ v, lookupField content p.1 = some v ∧ v.isinstance p.2 = true := by
  induction l with
  | nil => simp [require_fields]
  | cons p rest ih =>
    obtain ⟨f, t⟩ := p
    simp only [require_fields]
    cases hl : lookupField content f with
    | none =>
      simp only [List.mem_cons]
      constructor
      · intro h; cases h
      · intro h
        obtain ⟨v, hv, _⟩ := h (f, t) (Or.inl rfl)
        rw [hl] at hv; cases hv
    | some v =>
      by_cases hi : v.isinstance t = true
      · simp only [hi, if_true, ih, List.mem_cons]
        constructor
        · intro h q hq
          rcases hq with hq | hq
          · subst hq; exact ⟨v, hl, hi⟩
          · exact h q hq
        · intro h q hq; exact h q (Or.inr hq)
      · simp only [Bool.not_eq_true] at hi
        simp only [hi, Bool.false_eq_true, if_false]
        constructor
        · intro h; cases h
        · intro h
          obtain ⟨w, hw, hwi⟩ := h (f, t) (List.mem_cons_self _ _)
          rw [hl] at hw
          cases hw
          rw [hi] at hwi
          cases hwi

theorem require_fields_error (content : Content) (l : List (String × FieldType))
    (e : String) (h : require_fields content l = .error e) :
    ∃ f t, (f, t) ∈ l ∧
      ((lookupField content f = none ∧ e = missingFieldMsg f) ∨
        (∃ v, lookupField content f = some v ∧ v.isinstance t = false ∧
          e = wrongTypeMsg f)) := by
  induction l with
  | nil => simp [require_fields] at h
  | cons p rest ih =>
    obtain ⟨f, t⟩ := p
    simp only [require_fields] at h
    split at h
    · rename_i hl
      refine ⟨f, t, List.mem_cons_self _ _, Or.inl ⟨hl, ?_⟩⟩
      cases h; rfl
    · rename_i v hl
      split at h
      · obtain ⟨f', t', hmem, hrest⟩ := ih h
        exact ⟨f', t', List.mem_cons_of_mem _ hmem, hrest⟩
      · rename_i hi
        refine ⟨f, t, List.mem_cons_self _ _,
          Or.inr ⟨v, hl, by simpa using hi, ?_⟩⟩
        cases h; rfl

theorem specValid_iff (type : MessageType) (content : Content) :
    specValid type content = true ↔
      ∀ p ∈ specRequired type, ∃ v,
        lookupField content p.1 = some v ∧ v.isinstance p.2 = true := by
  unfold specValid
  rw [List.all_eq_true]
  constructor
  · intro h p hp
    have := h p hp
    cases hl : lookupField content p.1 with
    | none => rw [hl] at this; cases this
    | some v => rw [hl] at this; exact ⟨v, rfl, this⟩
  · intro h p hp
    obtain ⟨v, hv, hvi⟩ := h p hp
    rw [hv]
    exact hvi

theorem lookupField_append_of_some (c₁ c₂ : Content) (f : String) (v : Value)
    (h : lookupField c₁ f = some v) : lookupField (c₁ ++ c₂) f = some v := by
  induction c₁ with
  | nil => simp [lookupField] at h
  | cons p rest ih =>
    obtain ⟨k, w⟩ := p
    simp only [lookupField, List.cons_append] at h ⊢
    split at h
    · rename_i hk
      rw [if_pos hk]
      exact h
    · rename_i hk
      rw [if_neg hk]
      exact ih h

/-- C1: Message construction succeeds exactly when the content carries every
field the protocol table requires for the message type with the required
type; on failure the raised `ValueError` names a required field that is
missing or mistyped, and no `Message` value is produced (a failing
construction yields only the error). -/
theorem message_construction_valid_iff (type : MessageType) (content : Content) :
    ((mkMessage type content).isOk = true ↔ specValid type content = true) ∧
    (∀ e, mkMessage type content = .error e →
      ∃ f t, (f, t) ∈ specRequired type ∧
        ((lookupField content f = none ∧ e = missingFieldMsg f) ∨
          (∃ v, lookupField content f = some v ∧ v.isinstance t = false ∧
            e = wrongTypeMsg f))) ∧
    (∀ m, mkMessage type content = .ok m → m = ⟨type, content⟩) := by
  refine ⟨?_, ?_, ?_⟩
  · rw [specValid_iff, ← requiredFields_eq_specRequired, ← require_fields_ok_iff]
    unfold mkMessage
    cases h : require_fields content (requiredFields type) with
    | error e => simp [h, Except.isOk, Except.toBool]
    | ok u => cases u; simp [h, Except.isOk, Except.toBool]
  · intro e he
    unfold mkMessage at he
    cases h : require_fields content (requiredFields type) with
    | error e' =>
      rw [h] at he
      cases he
      rw [requiredFields_eq_specRequired] at h
      exact require_fields_error content _ e h
    | ok u => rw [h] at he; cases he
  · intro m hm
    unfold mkMessage at hm
    cases h : require_fields content (requiredFields type) with
    | error e' => rw [h] at hm; cases hm
    | ok u => rw [h] at hm; cases hm; rfl

theorem message_construction_valid_iff_witness :
    ((mkMessage .DATA []).isOk = true ↔ specValid .DATA [] = true) ∧
    (∀ e, mkMessage .DATA [] = .error e →
      ∃ f t, (f, t) ∈ specRequired .DATA ∧
        ((lookupField [] f = none ∧ e = missingFieldMsg f) ∨
          (∃ v, lookupField [] f = some v ∧ v.isinstance t = false ∧
            e = wrongTypeMsg f))) ∧
    (∀ m, mkMessage .DATA [] = .ok m → m = ⟨.DATA, []⟩) :=
  message_construction_valid_iff .DATA []

/-- C8 counterexample: the code does not reject extra content fields.
`Message(MessageType.PING, {"x": "y"})` has a non-empty content although
PING requires no fields, yet construction succeeds rather than raising a
`ValidationError`. -/
theorem message_extra_fields_accepted_counterexample :
    mkMessage .PING [("x", .str "y")] = .ok ⟨.PING, [("x", .str "y")]⟩ := rfl

/-- C8 (amended): Message construction checks only that the required fields
are present with the required types; a content carrying arbitrary extra
fields beyond the required set is accepted silently. -/
theorem message_extra_fields_accepted (type : MessageType) (content extra : Content)
    (h : specValid type content = true) :
    (mkMessage type (content ++ extra)).isOk = true := by
  have hall : ∀ p ∈ requiredFields type, ∃ v,
      lookupField (content ++ extra) p.1 = some v ∧ v.isinstance p.2 = true := by
    intro p hp
    rw [requiredFields_eq_specRequired] at hp
    obtain ⟨v, hv, hvi⟩ := (specValid_iff type content).mp h p hp
    exact ⟨v, lookupField_append_of_some _ _ _ _ hv, hvi⟩
  have hok : require_fields (content ++ extra) (requiredFields type) = .ok () :=
    (require_fields_ok_iff _ _).mpr hall
  unfold mkMessage
  rw [hok]
  rfl

theorem message_extra_fields_accepted_witness :
    specValid .CLEAR_DATA [("slot_name", .str "in")] = true ∧
    (mkMessage .CLEAR_DATA
      ([("slot_name", .str "in")] ++ [("junk", .conn 3)])).isOk = true :=
  ⟨by decide,
    message_extra_fields_accepted .CLEAR_DATA [("slot_name", .str "in")]
      [("junk", .conn 3)] (by decide)⟩

theorem decDigits_append (l₁ l₂ : List Char) (acc : Nat) :
    decDigits (l₁ ++ l₂) acc = decDigits l₂ (decDigits l₁ acc) := by
  induction l₁ generalizing acc with
  | nil => rfl
  | cons c cs ih => simp [decDigits, ih]

theorem toDigitsCore_append (b fuel n : Nat) (l : List Char) :
    Nat.toDigitsCore b fuel n l = Nat.toDigitsCore b fuel n [] ++ l := by
  induction fuel generalizing n l with
  | zero => simp [Nat.toDigitsCore]
  | succ f ih =>
    simp only [Nat.toDigitsCore]
    by_cases h : n / b = 0
    · simp [h]
    · rw [if_neg h, if_neg h, ih (n / b), ih (n / b) [Nat.digitChar (n % b)],
        List.append_assoc]
      rfl

theorem digitVal_digitChar {k : Nat} (h : k < 10) :
    digitVal (Nat.digitChar k) = k := by
  interval_cases k <;> rfl

theorem digitChar_isDigit {k : Nat} (h : k < 10) :
    48 ≤ (Nat.digitChar k).toNat ∧ (Nat.digitChar k).toNat ≤ 57 := by
  interval_cases k <;> exact ⟨by decide, by decide⟩

theorem toDigitsCore_decode (n : Nat) : ∀ fuel acc, n < fuel →
    decDigits (Nat.toDigitsCore 10 fuel n []) acc =
      acc * 10 ^ (Nat.toDigitsCore 10 fuel n []).length + n := by
  induction n using Nat.strong_induction_on with
  | _ n ih =>
    intro fuel acc hfuel
    cases fuel with
    | zero => omega
    | succ f =>
      simp only [Nat.toDigitsCore]
      by_cases h : n / 10 = 0
      · have hn : n < 10 := by omega
        simp only [h, if_true]
        simp [decDigits, Nat.mod_eq_of_lt hn, digitVal_digitChar hn]
      · rw [if_neg h, toDigitsCore_append]
        have hq : n / 10 < n := Nat.div_lt_self (by omega) (by omega)
        have hqf : n / 10 < f := by omega
        rw [decDigits_append]
        simp only [decDigits]
        rw [ih (n / 10) hq f _ hqf]
        have hmod : digitVal (Nat.digitChar (n % 10)) = n % 10 :=
          digitVal_digitChar (Nat.mod_lt n (by omega))
        rw [hmod]
        rw [List.length_append, List.length_cons, List.length_nil]
        have := Nat.div_add_mod n 10
        ring_nf
        omega

theorem toDigitsCore_digits (n : Nat) : ∀ fuel, n < fuel →
    ∀ c ∈ Nat.toDigitsCore 10 fuel n [], 48 ≤ c.toNat ∧ c.toNat ≤ 57 := by
  induction n using Nat.strong_induction_on with
  | _ n ih =>
    intro fuel hfuel c hc
    cases fuel with
    | zero => omega
    | succ f =>
      simp only [Nat.toDigitsCore] at hc
      by_cases h : n / 10 = 0
      · simp only [h, if_true] at hc
        rcases List.mem_singleton.mp hc with rfl
        exact digitChar_isDigit (Nat.mod_lt n (by omega))
      · rw [if_neg h, toDigitsCore_append] at hc
        rcases List.mem_append.mp hc with hc | hc
        · have hq : n / 10 < n := Nat.div_lt_self (by omega) (by omega)
          exact ih (n / 10) hq f (by omega) c hc
        · rcases List.mem_singleton.mp hc with rfl
          exact digitChar_isDigit (Nat.mod_lt n (by omega))

theorem repr_data (n : Nat) : (Nat.repr n).data = Nat.toDigits 10 n := rfl

theorem decode_repr (n : Nat) : decDigits (Nat.repr n).data 0 = n := by
  rw [repr_data]
  unfold Nat.toDigits
  rw [toDigitsCore_decode n (n + 1) 0 (Nat.lt_succ_self n)]
  simp

theorem repr_injective : Function.Injective Nat.repr := by
  intro m n h
  have : decDigits (Nat.repr m).data 0 = decDigits (Nat.repr n).data 0 := by rw [h]
  rwa [decode_repr, decode_repr] at this

theorem repr_chars_digit (n : Nat) :
    ∀ c ∈ (Nat.repr n).data, 48 ≤ c.toNat ∧ c.toNat ≤ 57 := by
  rw [repr_data]
  unfold Nat.toDigits
  exact toDigitsCore_digits n (n + 1) (Nat.lt_succ_self n)

theorem string_append_data (a b : String) : (a ++ b).data = a.data ++ b.data := rfl

theorem string_append_left_cancel {a b c : String} (h : a ++ b = a ++ c) :
    b = c := by
  have hd : a.data ++ b.data = a.data ++ c.data := by
    rw [← string_append_data, ← string_append_data, h]
  have := List.append_cancel_left hd
  cases b; cases c
  exact congrArg String.mk this

theorem append_repr_injective (name : String) :
    Function.Injective (fun j : Nat => name ++ Nat.repr j) := by
  intro i j h
  exact repr_injective (string_append_left_cancel h)

theorem exists_fresh_le (name : String) (ks : List String) :
    ∃ j ≤ ks.length, (name ++ Nat.repr j) ∉ ks := by
  by_contra hall
  push_neg at hall
  have hsub : ((List.range (ks.length + 1)).map
      fun j => name ++ Nat.repr j) ⊆ ks := by
    intro s hs
    rw [List.mem_map] at hs
    obtain ⟨j, hj, rfl⟩ := hs
    rw [List.mem_range] at hj
    exact hall j (by omega)
  have hnd : ((List.range (ks.length + 1)).map
      fun j => name ++ Nat.repr j).Nodup :=
    (List.nodup_range _).map (append_repr_injective name)
  have hlen := (hnd.subperm hsub).length_le
  rw [List.length_map, List.length_range] at hlen
  omega

theorem findFresh_spec (name : String) (ks : List String) :
    ∀ fuel idx, (∃ j, idx ≤ j ∧ j < idx + fuel ∧ (name ++ Nat.repr j) ∉ ks) →
      (name ++ Nat.repr (findFresh name ks idx fuel)) ∉ ks ∧
      idx ≤ findFresh name ks idx fuel ∧
      ∀ j, idx ≤ j → j < findFresh name ks idx fuel → (name ++ Nat.repr j) ∈ ks := by
  intro fuel
  induction fuel with
  | zero =>
    intro idx h
    obtain ⟨j, h1, h2, _⟩ := h
    omega
  | succ f ih =>
    intro idx h
    simp only [findFresh]
    by_cases hmem : (name ++ Nat.repr idx) ∈ ks
    · rw [if_pos hmem]
      have hnext : ∃ j, idx + 1 ≤ j ∧ j < (idx + 1) + f ∧ (name ++ Nat.repr j) ∉ ks := by
        obtain ⟨j, h1, h2, h3⟩ := h
        refine ⟨j, ?_, by omega, h3⟩
        rcases Nat.eq_or_lt_of_le h1 with rfl | hlt
        · exact absurd hmem h3
        · omega
      obtain ⟨hfree, hge, hmin⟩ := ih (idx + 1) hnext
      refine ⟨hfree, by omega, ?_⟩
      intro j hj1 hj2
      rcases Nat.eq_or_lt_of_le hj1 with rfl | hlt
      · exact hmem
      · exact hmin j (by omega) hj2
    · rw [if_neg hmem]
      exact ⟨hmem, Nat.le_refl _, fun j h1 h2 => by omega⟩

theorem freshIdx_spec (name : String) (ks : List String) :
    (name ++ Nat.repr (freshIdx name ks)) ∉ ks ∧
    ∀ j < freshIdx name ks, (name ++ Nat.repr j) ∈ ks := by
  obtain ⟨j, hj, hfree⟩ := exists_fresh_le name ks
  have h := findFresh_spec name ks (ks.length + 1) 0 ⟨j, by omega, by omega, hfree⟩
  exact ⟨h.1, fun i hi => h.2.2 i (by omega) hi⟩

/-- C4: `NodeContainer.add_node` assigns `base_name ++ repr idx` for the
smallest `idx` whose key is not in use; the assigned key is new, is
registered, and on a fresh container two successive calls with the same
base name assign `name0` then `name1`, which are distinct. -/
theorem container_add_node_fresh_minimal :
    (∀ (c : NodeContainer) (name : String) (node : NodeRef),
      (c.add_node name node).1 = name ++ Nat.repr (freshIdx name c.names) ∧
      (c.add_node name node).1 ∉ c.names ∧
      (∀ j < freshIdx name c.names, (name ++ Nat.repr j) ∈ c.names) ∧
      (c.add_node name node).2.names = c.names ++ [(c.add_node name node).1]) ∧
    (∀ (name : String) (n₁ n₂ : NodeRef),
      ((⟨[]⟩ : NodeContainer).add_node name n₁).1 = name ++ "0" ∧
      ((((⟨[]⟩ : NodeContainer).add_node name n₁).2).add_node name n₂).1 =
        name ++ "1" ∧
      ((⟨[]⟩ : NodeContainer).add_node name n₁).1 ≠
        ((((⟨[]⟩ : NodeContainer).add_node name n₁).2).add_node name n₂).1) := by
  have hbase : ∀ (c : NodeContainer) (name : String) (node : NodeRef),
      (c.add_node name node).1 = name ++ Nat.repr (freshIdx name c.names) ∧
      (c.add_node name node).1 ∉ c.names ∧
      (∀ j < freshIdx name c.names, (name ++ Nat.repr j) ∈ c.names) ∧
      (c.add_node name node).2.names = c.names ++ [(c.add_node name node).1] := by
    intro c name node
    obtain ⟨hfree, hmin⟩ := freshIdx_spec name c.names
    refine ⟨rfl, hfree, hmin, ?_⟩
    simp [NodeContainer.add_node, NodeContainer.names]
  refine ⟨hbase, ?_⟩
  intro name n₁ n₂
  have hrepr0 : Nat.repr 0 = "0" := rfl
  have hrepr1 : Nat.repr 1 = "1" := rfl
  have h0 : freshIdx name ((⟨[]⟩ : NodeContainer) : NodeContainer).names = 0 := rfl
  have hfst : ((⟨[]⟩ : NodeContainer).add_node name n₁).1 = name ++ "0" := by
    rw [(hbase ⟨[]⟩ name n₁).1, h0, hrepr0]
  have hc1 : (((⟨[]⟩ : NodeContainer).add_node name n₁).2).names = [name ++ "0"] := by
    rw [(hbase ⟨[]⟩ name n₁).2.2.2, hfst]
    rfl
  have hne10 : name ++ Nat.repr 1 ≠ name ++ Nat.repr 0 := by
    intro h
    exact absurd (append_repr_injective name h) (by omega)
  have hidx1 : freshIdx name [name ++ "0"] = 1 := by
    show findFresh name [name ++ "0"] 0 2 = 1
    have h0mem : (name ++ Nat.repr 0) ∈ [name ++ "0"] := by
      rw [hrepr0]
      exact List.mem_singleton.mpr rfl
    have h1mem : (name ++ Nat.repr 1) ∉ [name ++ "0"] := by
      simp only [List.mem_singleton]
      intro h
      rw [← hrepr0] at h
      exact hne10 h
    simp only [findFresh, h0mem, if_true]
    rw [if_neg h1mem]
  have hsnd : ((((⟨[]⟩ : NodeContainer).add_node name n₁).2).add_node name n₂).1 =
      name ++ "1" := by
    have := (hbase (((⟨[]⟩ : NodeContainer).add_node name n₁).2) name n₂).1
    rw [this, hc1, hidx1, hrepr1]
  refine ⟨hfst, hsnd, ?_⟩
  rw [hfst, hsnd]
  intro h
  have : ("0" : String) = "1" := string_append_left_cancel h
  exact absurd this (by decide)

theorem container_add_node_fresh_minimal_witness :
    ((⟨[("node0", ⟨0⟩)]⟩ : NodeContainer).add_node "node" ⟨1⟩).1 =
        "node" ++ Nat.repr (freshIdx "node" ["node0"]) ∧
      (0 < freshIdx "node" ["node0"] ∧ ("node" ++ Nat.repr 0) ∈ ["node0"]) ∧
      (((⟨[]⟩ : NodeContainer).add_node "node" ⟨0⟩).1 = "node" ++ "0" ∧
        ((((⟨[]⟩ : NodeContainer).add_node "node" ⟨0⟩).2).add_node "node" ⟨1⟩).1 =
          "node" ++ "1") := by
  have h1 := (container_add_node_fresh_minimal.1 ⟨[("node0", ⟨0⟩)]⟩ "node" ⟨1⟩)
  have h2 := container_add_node_fresh_minimal.2 "node" (⟨0⟩ : NodeRef) (⟨1⟩ : NodeRef)
  refine ⟨h1.1, ⟨by decide, ?_⟩, h2.1, h2.2.1⟩
  exact h1.2.2.1 0 (by decide)

theorem uint32_le_iff (a b : UInt32) : a ≤ b ↔ a.toNat ≤ b.toNat := by
  simp [UInt32.le_def, BitVec.le_def, UInt32.toNat]

theorem char_ofNat_toNat {m : Nat} (h : m < 55296) : (Char.ofNat m).toNat = m := by
  rw [Char.ofNat, dif_pos (Or.inl (by omega))]
  rfl

theorem toLower_eq (c : Char) : Char.toLower c =
    if c.toNat ≥ 65 ∧ c.toNat ≤ 90 then Char.ofNat (c.toNat + 32) else c := rfl

theorem isUpper_iff_toNat (c : Char) :
    c.isUpper = true ↔ 65 ≤ c.toNat ∧ c.toNat ≤ 90 := by
  show (decide ((65 : UInt32) ≤ c.val) && decide (c.val ≤ (90 : UInt32))) = true ↔ _
  simp only [Bool.and_eq_true, decide_eq_true_eq]
  rw [uint32_le_iff, uint32_le_iff]
  exact Iff.rfl

theorem char_toLower_not_upper (c : Char) : (Char.toLower c).isUpper = false := by
  rw [toLower_eq]
  by_cases h : c.toNat ≥ 65 ∧ c.toNat ≤ 90
  · rw [if_pos h, Bool.eq_false_iff]
    intro hu
    have := (isUpper_iff_toNat _).mp hu
    rw [char_ofNat_toNat (by omega)] at this
    omega
  · rw [if_neg h, Bool.eq_false_iff]
    intro hu
    exact h ((isUpper_iff_toNat _).mp hu)

theorem digit_char_not_upper {c : Char} (h : c.toNat ≤ 57) : c.isUpper = false := by
  rw [Bool.eq_false_iff]
  intro hu
  have := (isUpper_iff_toNat _).mp hu
  omega

theorem pyLower_data (s : String) :
    (pyLower s).data = s.data.map Char.toLower := rfl

/-- C10 (implicit claim): `Manager.add_node` registers and returns the
lowercased name with a numeric suffix; the registered key never contains an
uppercase character, so a name with an uppercase character is never itself
a container key. -/
theorem manager_add_node_lowercases (s : ManagerState) (name : String) :
    (s.add_node name).1 =
      pyLower name ++ Nat.repr (freshIdx (pyLower name) (s.nodes.map Prod.fst)) ∧
    (∀ c ∈ (s.add_node name).1.data, c.isUpper = false) ∧
    (s.add_node name).1 ∈ (s.add_node name).2.nodes.map Prod.fst ∧
    (∀ u : String, (∃ c ∈ u.data, c.isUpper = true) → u ≠ (s.add_node name).1) := by
  have h1 : (s.add_node name).1 =
      pyLower name ++ Nat.repr (freshIdx (pyLower name) (s.nodes.map Prod.fst)) := rfl
  have hchars : ∀ c ∈ (s.add_node name).1.data, c.isUpper = false := by
    rw [h1, string_append_data]
    intro c hc
    rcases List.mem_append.mp hc with hc | hc
    · rw [pyLower_data] at hc
      obtain ⟨c', _, rfl⟩ := List.mem_map.mp hc
      exact char_toLower_not_upper c'
    · exact digit_char_not_upper (repr_chars_digit _ c hc).2
  refine ⟨h1, hchars, ?_, ?_⟩
  · have h2 : (s.add_node name).2.nodes =
        s.nodes ++ [((s.add_node name).1, (⟨s.nextConn⟩ : NodeRef))] := rfl
    rw [h2, List.map_append]
    exact List.mem_append.mpr (Or.inr (List.mem_singleton.mpr rfl))
  · intro u hu hequ
    obtain ⟨c, hc, hcu⟩ := hu
    rw [hequ] at hc
    rw [hchars c hc] at hcu
    cases hcu

theorem manager_add_node_lowercases_witness :
    (∃ c ∈ ("Node" : String).data, c.isUpper = true) ∧
    ("Node" : String) ≠ (initManager.add_node "Node").1 :=
  ⟨by decide,
    (manager_add_node_lowercases initManager "Node").2.2.2 "Node" (by decide)⟩

theorem lookupConn_setConn_self {l : List (Nat × ConnState)} {i : Nat}
    {c₀ : ConnState} (h : lookupConn l i = some c₀) (c : ConnState) :
    lookupConn (setConn l i c) i = some c := by
  induction l with
  | nil => simp [lookupConn] at h
  | cons p rest ih =>
    obtain ⟨k, d⟩ := p
    simp only [lookupConn, setConn] at h ⊢
    by_cases hk : k = i
    · rw [if_pos hk]
      simp [lookupConn, hk]
    · rw [if_neg hk] at h
      rw [if_neg hk]
      simp only [lookupConn, if_neg hk]
      exact ih h

theorem lookupConn_setConn_ne {l : List (Nat × ConnState)} {i j : Nat}
    (hne : j ≠ i) (c : ConnState) :
    lookupConn (setConn l i c) j = lookupConn l j := by
  induction l with
  | nil => rfl
  | cons p rest ih =>
    obtain ⟨k, d⟩ := p
    simp only [lookupConn, setConn]
    by_cases hk : k = i
    · rw [if_pos hk]
      simp only [lookupConn]
      rw [if_neg (by omega : ¬k = j), if_neg (by omega : ¬k = j)]
      exact ih
    · rw [if_neg hk]
      simp only [lookupConn]
      by_cases hkj : k = j
      · rw [if_pos hkj, if_pos hkj]
      · rw [if_neg hkj, if_neg hkj]
        exact ih

theorem lookupConn_append_some {l l' : List (Nat × ConnState)} {i : Nat}
    {c : ConnState} (h : lookupConn l i = some c) :
    lookupConn (l ++ l') i = some c := by
  induction l with
  | nil => simp [lookupConn] at h
  | cons p rest ih =>
    obtain ⟨k, d⟩ := p
    simp only [lookupConn, List.cons_append] at h ⊢
    by_cases hk : k = i
    · rw [if_pos hk] at h ⊢; exact h
    · rw [if_neg hk] at h ⊢; exact ih h

theorem lookupConn_append_none {l l' : List (Nat × ConnState)} {i : Nat}
    (h : lookupConn l i = none) :
    lookupConn (l ++ l') i = lookupConn l' i := by
  induction l with
  | nil => rfl
  | cons p rest ih =>
    obtain ⟨k, d⟩ := p
    simp only [lookupConn, List.cons_append] at h ⊢
    by_cases hk : k = i
    · rw [if_pos hk] at h; cases h
    · rw [if_neg hk] at h ⊢; exact ih h

theorem setConn_keys (l : List (Nat × ConnState)) (i : Nat) (c : ConnState) :
    (setConn l i c).map Prod.fst = l.map Prod.fst := by
  induction l with
  | nil => rfl
  | cons p rest ih =>
    obtain ⟨k, d⟩ := p
    simp only [setConn]
    by_cases hk : k = i
    · rw [if_pos hk]; simp [ih]
    · rw [if_neg hk]; simp [ih]

theorem lookupNode_eq_none_iff {l : List (String × NodeRef)} {n : String} :
    lookupNode l n = none ↔ n ∉ l.map Prod.fst := by
  induction l with
  | nil => simp [lookupNode]
  | cons p rest ih =>
    obtain ⟨k, r⟩ := p
    simp only [lookupNode, List.map_cons, List.mem_cons]
    by_cases hk : k = n
    · rw [if_pos hk]
      simp [hk]
    · rw [if_neg hk]
      rw [ih]
      constructor
      · intro h hmem
        rcases hmem with h' | h'
        · exact hk h'.symm
        · exact h h'
      · intro h hmem
        exact h (Or.inr hmem)

theorem lookupNode_mem {l : List (String × NodeRef)} {n : String} {r : NodeRef}
    (h : lookupNode l n = some r) : (n, r) ∈ l := by
  induction l with
  | nil => simp [lookupNode] at h
  | cons p rest ih =>
    obtain ⟨k, r'⟩ := p
    simp only [lookupNode] at h
    by_cases hk : k = n
    · rw [if_pos hk] at h
      cases h
      subst hk
      exact List.mem_cons_self _ _
    · rw [if_neg hk] at h
      exact List.mem_cons_of_mem _ (ih h)

theorem removeEntry_sublist (l : List (String × NodeRef)) (n : String) :
    List.Sublist (removeEntry l n) l := by
  induction l with
  | nil => exact List.Sublist.refl _
  | cons p rest ih =>
    obtain ⟨k, r⟩ := p
    simp only [removeEntry]
    by_cases hk : k = n
    · rw [if_pos hk]
      exact List.sublist_cons_self _ _
    · rw [if_neg hk]
      exact ih.cons₂ _

theorem removeEntry_not_mem {l : List (String × NodeRef)} {n : String}
    (hnd : (l.map Prod.fst).Nodup) : n ∉ (removeEntry l n).map Prod.fst := by
  induction l with
  | nil => simp [removeEntry]
  | cons p rest ih =>
    obtain ⟨k, r⟩ := p
    simp only [List.map_cons, List.nodup_cons] at hnd
    simp only [removeEntry]
    by_cases hk : k = n
    · rw [if_pos hk]
      subst hk
      exact hnd.1
    · rw [if_neg hk]
      simp only [List.map_cons, List.mem_cons]
      intro h
      rcases h with h | h
      · exact hk h.symm
      · exact ih hnd.2 h

/-- C5: `NodeContainer.remove_node` on an absent name raises `KeyError`
(the spec's `NotFoundError`), invokes no node's `terminate`, and leaves the
container — indeed the whole manager state, connections included — exactly
as it was. -/
theorem container_remove_absent_fails (s : ManagerState) (name : String)
    (h : name ∉ s.nodes.map Prod.fst) :
    s.remove_node name = (s, some (.keyError name)) := by
  unfold ManagerState.remove_node
  rw [lookupNode_eq_none_iff.mpr h]

theorem container_remove_absent_fails_witness :
    ("ghost" ∉ ((initManager.add_node "eeg").2).nodes.map Prod.fst) ∧
    ((initManager.add_node "eeg").2).remove_node "ghost" =
      ((initManager.add_node "eeg").2, some (.keyError "ghost")) := by
  refine ⟨by decide, ?_⟩
  exact container_remove_absent_fails _ "ghost" (by decide)

theorem sendOn_error_linkClosed {s : ManagerState} {i : Nat} {m : Message}
    {e : Err} (h : s.sendOn i m = .error e) : e = .linkClosed := by
  unfold ManagerState.sendOn at h
  cases hl : lookupConn s.conns i with
  | none =>
    rw [hl] at h
    cases h
    rfl
  | some c =>
    simp only [hl] at h
    by_cases hc : (c.closed || c.peerDead) = true
    · rw [if_pos hc] at h
      cases h
      rfl
    · rw [if_neg hc] at h
      cases h

theorem sendOn_running (s : ManagerState) (b : Bool) (i : Nat) (m : Message) :
    ({ s with running := b } : ManagerState).sendOn i m =
      match s.sendOn i m with
      | .ok s' => .ok { s' with running := b }
      | .error e => .error e := by
  unfold ManagerState.sendOn
  cases hl : lookupConn s.conns i with
  | none => simp [hl]
  | some c =>
    simp only [hl]
    by_cases hc : (c.closed || c.peerDead) = true
    · simp [hc]
    · simp [hc]

theorem terminateRef_running (s : ManagerState) (b : Bool) (r : NodeRef) :
    terminateRef { s with running := b } r =
      { terminateRef s r with running := b } := by
  unfold terminateRef
  cases hl : lookupConn s.conns r.connId with
  | none => simp [hl]
  | some c =>
    simp only [hl]
    by_cases hc : c.closed = true
    · simp [hc]
    · simp [hc]

theorem linkOp_running (s : ManagerState) (b : Bool) (t : MessageType)
    (o i so si : String) :
    ({ s with running := b } : ManagerState).linkOp t o i so si =
      ({ (s.linkOp t o i so si).1 with running := b },
        (s.linkOp t o i so si).2) := by
  unfold ManagerState.linkOp
  cases ho : lookupNode s.nodes o with
  | none => simp [ho]
  | some rOut =>
    cases hi : lookupNode s.nodes i with
    | none => simp [ho, hi]
    | some rIn =>
      simp only [ho, hi]
      cases hm : mkMessage t
          [("slot_name_out", .str so), ("slot_name_in", .str si),
            ("node_connection", .conn rIn.connId)] with
      | error e => simp [hm]
      | ok m =>
        simp only [hm, sendOn_running]
        cases hs : s.sendOn rOut.connId m with
        | error e => simp [hs]
        | ok s' => simp [hs]

theorem linkOp_error_cases (s : ManagerState) (t : MessageType)
    (o i so si : String) : (s.linkOp t o i so si).2.2 ≠ some .illegalState := by
  unfold ManagerState.linkOp
  cases ho : lookupNode s.nodes o with
  | none => simp [ho]
  | some rOut =>
    cases hi : lookupNode s.nodes i with
    | none => simp [ho, hi]
    | some rIn =>
      simp only [ho, hi]
      cases hm : mkMessage t
          [("slot_name_out", .str so), ("slot_name_in", .str si),
            ("node_connection", .conn rIn.connId)] with
      | error e => simp [hm]
      | ok m =>
        simp only [hm]
        cases hs : s.sendOn rOut.connId m with
        | error e =>
          have := sendOn_error_linkClosed hs
          subst this
          simp [hs]
        | ok s' => simp [hs]

/-- C2 counterexample: on a Manager that has completed `terminate()`,
`remove_node` of a registered node still succeeds (no error at all), so it
does not fail with an `IllegalStateError`. -/
theorem manager_terminated_ops_counterexample :
    ((initManager.add_node "eeg").2.terminate).1.running = false ∧
    (((initManager.add_node "eeg").2.terminate).1.remove_node "eeg0").2 = none ∧
    ((initManager.add_node "eeg").2.terminate).2.2 = none := by
  decide

/-- C2 (amended): the Manager performs no RUNNING-state check at all.  The
`running` flag is ignored by — and merely carried through —
`add_node`, `remove_node`, `add_link` and `remove_link`, so after
`terminate()` (which only clears the flag and shuts down connections) the
operations behave exactly as before, and none of the fallible operations
can ever fail with the spec's `IllegalStateError`. -/
theorem manager_ops_ignore_running (s : ManagerState)
    (name o i so si : String) (b : Bool) :
    (({ s with running := b } : ManagerState).add_node name).1 =
      (s.add_node name).1 ∧
    (({ s with running := b } : ManagerState).add_node name).2 =
      { (s.add_node name).2 with running := b } ∧
    (({ s with running := b } : ManagerState).remove_node name) =
      ({ (s.remove_node name).1 with running := b }, (s.remove_node name).2) ∧
    (({ s with running := b } : ManagerState).add_link o i so si) =
      ({ (s.add_link o i so si).1 with running := b },
        (s.add_link o i so si).2) ∧
    (({ s with running := b } : ManagerState).remove_link o i so si) =
      ({ (s.remove_link o i so si).1 with running := b },
        (s.remove_link o i so si).2) ∧
    (s.remove_node name).2 ≠ some .illegalState ∧
    (s.add_link o i so si).2.2 ≠ some .illegalState ∧
    (s.remove_link o i so si).2.2 ≠ some .illegalState := by
  have hrem : (({ s with running := b } : ManagerState).remove_node name) =
      ({ (s.remove_node name).1 with running := b }, (s.remove_node name).2) := by
    unfold ManagerState.remove_node
    cases hl : lookupNode s.nodes name with
    | none => simp [hl]
    | some r => simp [hl, terminateRef_running]
  have hremErr : (s.remove_node name).2 ≠ some .illegalState := by
    unfold ManagerState.remove_node
    cases hl : lookupNode s.nodes name with
    | none => simp [hl]
    | some r => simp [hl]
  exact ⟨rfl, rfl, hrem, linkOp_running s b .ADD_OUTPUT_PIPE o i so si,
    linkOp_running s b .REMOVE_OUTPUT_PIPE o i so si, hremErr,
    linkOp_error_cases s .ADD_OUTPUT_PIPE o i so si,
    linkOp_error_cases s .REMOVE_OUTPUT_PIPE o i so si⟩

theorem manager_ops_ignore_running_witness :
    (initManager.remove_node "eeg0").2 ≠ some Err.illegalState :=
  (manager_ops_ignore_running initManager "eeg0" "a" "b" "c" "d" false).2.2.2.2.2.1

theorem sendOn_ok_parts {s : ManagerState} {i : Nat} {m : Message}
    {s' : ManagerState} (h : s.sendOn i m = .ok s') :
    ∃ c, lookupConn s.conns i = some c ∧ c.closed = false ∧ c.peerDead = false ∧
      s' = { s with conns := setConn s.conns i { c with sent := c.sent ++ [m] } } := by
  unfold ManagerState.sendOn at h
  cases hl : lookupConn s.conns i with
  | none =>
    rw [hl] at h
    cases h
  | some c =>
    simp only [hl] at h
    by_cases hc : (c.closed || c.peerDead) = true
    · rw [if_pos hc] at h
      cases h
    · rw [if_neg hc] at h
      cases h
      simp only [Bool.or_eq_true, not_or, Bool.not_eq_true] at hc
      exact ⟨c, rfl, hc.1, hc.2, rfl⟩

theorem closeOn_frame (s : ManagerState) (i : Nat) :
    (s.closeOn i).nodes = s.nodes ∧ (s.closeOn i).running = s.running ∧
    (s.closeOn i).nextConn = s.nextConn := by
  unfold ManagerState.closeOn
  cases hl : lookupConn s.conns i with
  | none => exact ⟨rfl, rfl, rfl⟩
  | some c => exact ⟨rfl, rfl, rfl⟩

theorem closeOn_lookup_ne (s : ManagerState) {i j : Nat} (hne : j ≠ i) :
    lookupConn (s.closeOn i).conns j = lookupConn s.conns j := by
  unfold ManagerState.closeOn
  cases hl : lookupConn s.conns i with
  | none => rfl
  | some c => exact lookupConn_setConn_ne hne _

theorem sendOn_ok_frame {s : ManagerState} {i : Nat} {m : Message}
    {s' : ManagerState} (h : s.sendOn i m = .ok s') :
    s'.nodes = s.nodes ∧ s'.running = s.running ∧ s'.nextConn = s.nextConn := by
  obtain ⟨c, _, _, _, rfl⟩ := sendOn_ok_parts h
  exact ⟨rfl, rfl, rfl⟩

theorem terminateLoop_frame (ns : List (String × NodeRef)) :
    ∀ (s : ManagerState) (evs : List Event),
      (terminateLoop s ns evs).1.nodes = s.nodes ∧
      (terminateLoop s ns evs).1.running = s.running ∧
      (terminateLoop s ns evs).1.nextConn = s.nextConn := by
  induction ns with
  | nil => intro s evs; exact ⟨rfl, rfl, rfl⟩
  | cons p rest ih =>
    intro s evs
    obtain ⟨n, r⟩ := p
    simp only [terminateLoop]
    cases hs : s.sendOn r.connId termMsg with
    | error e => exact ⟨rfl, rfl, rfl⟩
    | ok s₁ =>
      have hfr := sendOn_ok_frame hs
      have h₂ := closeOn_frame s₁ r.connId
      have h₃ := ih (s₁.closeOn r.connId)
        (evs ++ [.sent r.connId termMsg, .closedLink r.connId])
      exact ⟨h₃.1.trans (h₂.1.trans hfr.1), h₃.2.1.trans (h₂.2.1.trans hfr.2.1),
        h₃.2.2.trans (h₂.2.2.trans hfr.2.2)⟩

theorem terminateLoop_spec (ns : List (String × NodeRef)) :
    ∀ (s : ManagerState) (evs : List Event),
      ((terminateLoop s ns evs).2.2 = none ∧
        (terminateLoop s ns evs).2.1 = evs ++ termTrace ns) ∨
      (∃ pre bad post, ns = pre ++ bad :: post ∧
        (terminateLoop s ns evs).2.2 = some .linkClosed ∧
        (terminateLoop s ns evs).2.1 = evs ++ termTrace pre) := by
  induction ns with
  | nil =>
    intro s evs
    exact Or.inl ⟨rfl, by simp [terminateLoop, termTrace]⟩
  | cons p rest ih =>
    intro s evs
    obtain ⟨n, r⟩ := p
    simp only [terminateLoop]
    cases hs : s.sendOn r.connId termMsg with
    | error e =>
      refine Or.inr ⟨[], (n, r), rest, rfl, ?_, by simp [termTrace]⟩
      simp [sendOn_error_linkClosed hs]
    | ok s₁ =>
      rcases ih (s₁.closeOn r.connId)
          (evs ++ [.sent r.connId termMsg, .closedLink r.connId]) with
        ⟨h1, h2⟩ | ⟨pre, bad, post, heq, herr, htr⟩
      · refine Or.inl ⟨h1, ?_⟩
        rw [h2, List.append_assoc]
        rfl
      · refine Or.inr ⟨(n, r) :: pre, bad, post, by simp [heq], herr, ?_⟩
        rw [htr, List.append_assoc]
        rfl

theorem sendOn_ok_lookup_ne {s : ManagerState} {i : Nat} {m : Message}
    {s' : ManagerState} (h : s.sendOn i m = .ok s') {j : Nat} (hne : j ≠ i) :
    lookupConn s'.conns j = lookupConn s.conns j := by
  obtain ⟨c, _, _, _, rfl⟩ := sendOn_ok_parts h
  exact lookupConn_setConn_ne hne _

theorem sendOn_ok_lookup_self {s : ManagerState} {i : Nat} {m : Message}
    {s' : ManagerState} (h : s.sendOn i m = .ok s') :
    ∃ c, lookupConn s.conns i = some c ∧ c.closed = false ∧ c.peerDead = false ∧
      lookupConn s'.conns i = some { c with sent := c.sent ++ [m] } := by
  obtain ⟨c, hl, h1, h2, rfl⟩ := sendOn_ok_parts h
  exact ⟨c, hl, h1, h2, lookupConn_setConn_self hl _⟩

theorem closeOn_lookup_self {s : ManagerState} {i : Nat} {c : ConnState}
    (hl : lookupConn s.conns i = some c) :
    lookupConn (s.closeOn i).conns i = some { c with closed := true } := by
  unfold ManagerState.closeOn
  rw [hl]
  exact lookupConn_setConn_self hl _

theorem terminateLoop_preserves_closed (ns : List (String × NodeRef)) :
    ∀ (s : ManagerState) (evs : List Event) (i : Nat) (c : ConnState),
      (terminateLoop s ns evs).2.2 = none →
      lookupConn s.conns i = some c → c.closed = true →
      lookupConn (terminateLoop s ns evs).1.conns i = some c := by
  induction ns with
  | nil =>
    intro s evs i c _ hl _
    exact hl
  | cons p rest ih =>
    intro s evs i c hok hl hc
    obtain ⟨n, r⟩ := p
    simp only [terminateLoop] at hok ⊢
    cases hs : s.sendOn r.connId termMsg with
    | error e =>
      rw [hs] at hok
      cases hok
    | ok s₁ =>
      simp only [hs] at hok ⊢
      obtain ⟨c₀, hl₀, hcl₀, _, _⟩ := sendOn_ok_lookup_self hs
      have hne : i ≠ r.connId := by
        intro heq
        rw [heq, hl₀] at hl
        cases hl
        rw [hcl₀] at hc
        cases hc
      have hl₁ : lookupConn s₁.conns i = some c :=
        (sendOn_ok_lookup_ne hs hne).trans hl
      have hl₂ : lookupConn (s₁.closeOn r.connId).conns i = some c :=
        (closeOn_lookup_ne s₁ hne).trans hl₁
      exact ih _ _ i c hok hl₂ hc

theorem terminateLoop_all_closed (ns : List (String × NodeRef)) :
    ∀ (s : ManagerState) (evs : List Event),
      (terminateLoop s ns evs).2.2 = none →
      ∀ p ∈ ns, ∃ c, lookupConn (terminateLoop s ns evs).1.conns p.2.connId = some c ∧
        c.closed = true ∧ termMsg ∈ c.sent := by
  induction ns with
  | nil =>
    intro s evs _ p hp
    cases hp
  | cons q rest ih =>
    intro s evs hok p hp
    obtain ⟨n, r⟩ := q
    simp only [terminateLoop] at hok ⊢
    cases hs : s.sendOn r.connId termMsg with
    | error e =>
      rw [hs] at hok
      cases hok
    | ok s₁ =>
      simp only [hs] at hok ⊢
      obtain ⟨c₀, hl₀, hcl₀, _, hl₁⟩ := sendOn_ok_lookup_self hs
      have hl₂ : lookupConn (s₁.closeOn r.connId).conns r.connId =
          some { c₀ with sent := c₀.sent ++ [termMsg], closed := true } :=
        closeOn_lookup_self hl₁
      rcases List.mem_cons.mp hp with rfl | hp'
      · refine ⟨{ c₀ with sent := c₀.sent ++ [termMsg], closed := true }, ?_, rfl, ?_⟩
        · exact terminateLoop_preserves_closed rest _ _ _ _ hok hl₂ rfl
        · simp
      · exact ih _ _ hok p hp'

/-- C3 counterexample: a manager with two nodes whose first node's control
Link has an unreachable peer.  `terminate()` propagates the `LinkClosed`
failure of the first send to the caller and the second node is never sent
`TERMINATE` nor closed — the failure is not swallowed and does prevent the
termination of the remaining nodes. -/
theorem manager_terminate_failure_counterexample :
    ((⟨true, [("a0", ⟨0⟩), ("b0", ⟨1⟩)],
        [(0, ⟨false, [], true⟩), (1, ⟨false, [], false⟩)], 2⟩ :
      ManagerState).terminate).2.2 = some .linkClosed ∧
    ((⟨true, [("a0", ⟨0⟩), ("b0", ⟨1⟩)],
        [(0, ⟨false, [], true⟩), (1, ⟨false, [], false⟩)], 2⟩ :
      ManagerState).terminate).2.1 = [] ∧
    lookupConn ((⟨true, [("a0", ⟨0⟩), ("b0", ⟨1⟩)],
        [(0, ⟨false, [], true⟩), (1, ⟨false, [], false⟩)], 2⟩ :
      ManagerState).terminate).1.conns 1 = some ⟨false, [], false⟩ := by
  decide

/-- C3 (amended): `Manager.terminate` clears `_running` and walks the
container in insertion order sending `TERMINATE` on and then closing each
node's control Link; when every send succeeds this terminates every node,
in order.  Failures are not swallowed, however: the loop has no exception
handling, so the first failing send raises `LinkClosed` out of
`terminate()` and the remaining nodes receive neither the `TERMINATE` nor
the close. -/
theorem manager_terminate_order_and_propagation (s : ManagerState) :
    (s.terminate).1.running = false ∧
    (s.terminate).1.nodes = s.nodes ∧
    (((s.terminate).2.2 = none ∧ (s.terminate).2.1 = termTrace s.nodes ∧
        ∀ p ∈ s.nodes, ∃ c,
          lookupConn (s.terminate).1.conns p.2.connId = some c ∧
          c.closed = true ∧ termMsg ∈ c.sent) ∨
      (∃ pre bad post, s.nodes = pre ++ bad :: post ∧
        (s.terminate).2.2 = some .linkClosed ∧
        (s.terminate).2.1 = termTrace pre)) := by
  have hframe := terminateLoop_frame s.nodes { s with running := false } []
  refine ⟨hframe.2.1, hframe.1, ?_⟩
  rcases terminateLoop_spec s.nodes { s with running := false } [] with
    ⟨h1, h2⟩ | ⟨pre, bad, post, heq, herr, htr⟩
  · refine Or.inl ⟨h1, by simpa using h2, ?_⟩
    exact terminateLoop_all_closed s.nodes _ [] h1
  · exact Or.inr ⟨pre, bad, post, heq, herr, by simpa using htr⟩

theorem manager_terminate_order_and_propagation_witness :
    ((initManager.add_node "eeg").2.terminate).1.running = false ∧
    ((initManager.add_node "eeg").2.terminate).1.nodes =
      (initManager.add_node "eeg").2.nodes :=
  ⟨(manager_terminate_order_and_propagation (initManager.add_node "eeg").2).1,
    (manager_terminate_order_and_propagation (initManager.add_node "eeg").2).2.1⟩

theorem eta_running_false {t : ManagerState} (h : t.running = false) :
    ({ t with running := false } : ManagerState) = t := by
  cases t
  simp only at h
  rw [h]

/-- C7 counterexample: after a completed first `terminate()` on a manager
with one node, a second `terminate()` call raises `LinkClosed` (the loop
re-sends `TERMINATE` on the now-closed control Link), so `terminate` is
not idempotent. -/
theorem manager_terminate_not_idempotent_counterexample :
    ((initManager.add_node "eeg").2.terminate).2.2 = none ∧
    (((initManager.add_node "eeg").2.terminate).1.terminate).2.2 =
      some .linkClosed := by
  decide

/-- C7 (amended): a second `terminate()` is a no-op on the state but not
error-free: the loop runs again and re-attempts a `TERMINATE` send on every
(now closed) control Link, so with at least one node in the container the
first re-send fails with `LinkClosed`, which propagates to the caller.
Only on an empty container is `terminate` idempotent. -/
theorem manager_terminate_not_idempotent (s : ManagerState)
    (hok : (s.terminate).2.2 = none) :
    (s.nodes ≠ [] →
      ((s.terminate).1.terminate).2.2 = some .linkClosed ∧
      ((s.terminate).1.terminate).1 = (s.terminate).1 ∧
      ((s.terminate).1.terminate).2.1 = []) ∧
    (s.nodes = [] → (s.terminate).1.terminate = ((s.terminate).1, [], none)) := by
  have hframe := terminateLoop_frame s.nodes { s with running := false } []
  have hrun : (s.terminate).1.running = false := hframe.2.1
  have hnodes : (s.terminate).1.nodes = s.nodes := hframe.1
  have heta : ({ (s.terminate).1 with running := false } : ManagerState) =
      (s.terminate).1 := eta_running_false hrun
  constructor
  · intro hne
    obtain ⟨p, rest, hcons⟩ : ∃ p rest, s.nodes = p :: rest := by
      cases hn : s.nodes with
      | nil => exact absurd hn hne
      | cons p rest => exact ⟨p, rest, rfl⟩
    obtain ⟨n, r⟩ := p
    have hmem : (n, r) ∈ s.nodes := by
      rw [hcons]
      exact List.mem_cons_self _ _
    obtain ⟨c, hlc, hcl, _⟩ :=
      terminateLoop_all_closed s.nodes { s with running := false } [] hok (n, r) hmem
    have hlc' : lookupConn (s.terminate).1.conns r.connId = some c := hlc
    have hsend : ((s.terminate).1).sendOn r.connId termMsg = .error .linkClosed := by
      unfold ManagerState.sendOn
      rw [hlc']
      simp [hcl]
    have hloop : ((s.terminate).1).terminate =
        ((s.terminate).1, [], some Err.linkClosed) := by
      show terminateLoop { (s.terminate).1 with running := false }
        ({ (s.terminate).1 with running := false } : ManagerState).nodes [] = _
      rw [heta, hnodes, hcons]
      simp only [terminateLoop, hsend]
    rw [hloop]
    exact ⟨rfl, rfl, rfl⟩
  · intro hnil
    show terminateLoop { (s.terminate).1 with running := false }
      ({ (s.terminate).1 with running := false } : ManagerState).nodes [] = _
    rw [heta, hnodes, hnil]
    rfl

theorem manager_terminate_not_idempotent_witness :
    ((initManager.add_node "psd").2.terminate).2.2 = none ∧
    ((initManager.add_node "psd").2).nodes ≠ [] ∧
    ((((initManager.add_node "psd").2.terminate).1.terminate).2.2 =
      some .linkClosed ∧
      ((((initManager.add_node "psd").2.terminate).1.terminate)).1 =
        ((initManager.add_node "psd").2.terminate).1 ∧
      ((((initManager.add_node "psd").2.terminate).1.terminate)).2.1 = []) :=
  ⟨by decide, by decide,
    (manager_terminate_not_idempotent (initManager.add_node "psd").2
      (by decide)).1 (by decide)⟩

theorem linkOp_frame (s : ManagerState) (t : MessageType)
    (o i so si : String) (rOut rIn : NodeRef)
    (ho : lookupNode s.nodes o = some rOut)
    (hi : lookupNode s.nodes i = some rIn)
    (hmk : mkMessage t
      [("slot_name_out", .str so), ("slot_name_in", .str si),
        ("node_connection", .conn rIn.connId)] = .ok (pipeMsg t so si rIn.connId)) :
    (s.linkOp t o i so si).1.nodes = s.nodes ∧
    (s.linkOp t o i so si).1.running = s.running ∧
    (s.linkOp t o i so si).1.nextConn = s.nextConn ∧
    ((s.linkOp t o i so si).2.2 = none →
      ∃ c, lookupConn s.conns rOut.connId = some c ∧ c.closed = false ∧
        c.peerDead = false ∧
        (s.linkOp t o i so si).1.conns = setConn s.conns rOut.connId
          { c with sent := c.sent ++ [pipeMsg t so si rIn.connId] } ∧
        (s.linkOp t o i so si).2.1 =
          [.sent rOut.connId (pipeMsg t so si rIn.connId)]) ∧
    ((s.linkOp t o i so si).2.2 ≠ none →
      (s.linkOp t o i so si).1 = s ∧ (s.linkOp t o i so si).2.1 = []) := by
  have heqE : ∀ e, s.sendOn rOut.connId (pipeMsg t so si rIn.connId) = .error e →
      s.linkOp t o i so si = (s, [], some e) := by
    intro e hs
    unfold ManagerState.linkOp
    simp only [ho, hi, hmk, hs]
  have heqO : ∀ s', s.sendOn rOut.connId (pipeMsg t so si rIn.connId) = .ok s' →
      s.linkOp t o i so si =
        (s', [.sent rOut.connId (pipeMsg t so si rIn.connId)], none) := by
    intro s' hs
    unfold ManagerState.linkOp
    simp only [ho, hi, hmk, hs]
  cases hs : s.sendOn rOut.connId (pipeMsg t so si rIn.connId) with
  | error e =>
    rw [heqE e hs]
    refine ⟨rfl, rfl, rfl, fun h => ?_, fun _ => ⟨rfl, rfl⟩⟩
    cases h
  | ok s' =>
    obtain ⟨c, hl, h1, h2, rfl⟩ := sendOn_ok_parts hs
    rw [heqO _ hs]
    exact ⟨rfl, rfl, rfl, fun _ => ⟨c, hl, h1, h2, rfl, rfl⟩, fun h => absurd rfl h⟩

/-- C9 (implicit claim): when both named nodes are present, `add_link` and
`remove_link` leave the node container — names, order, and `NodeRef`s —
exactly as it was (as well as `_running` and the connection-id source); the
only effect is one `ADD_OUTPUT_PIPE` (resp. `REMOVE_OUTPUT_PIPE`) message
sent on the output node's control connection (none at all if that send
fails). -/
theorem manager_link_ops_frame (s : ManagerState) (o i so si : String)
    (rOut rIn : NodeRef) (ho : lookupNode s.nodes o = some rOut)
    (hi : lookupNode s.nodes i = some rIn) :
    ((s.add_link o i so si).1.nodes = s.nodes ∧
      (s.add_link o i so si).1.running = s.running ∧
      (s.add_link o i so si).1.nextConn = s.nextConn ∧
      ((s.add_link o i so si).2.2 = none →
        ∃ c, lookupConn s.conns rOut.connId = some c ∧ c.closed = false ∧
          c.peerDead = false ∧
          (s.add_link o i so si).1.conns = setConn s.conns rOut.connId
            { c with sent := c.sent ++
              [pipeMsg .ADD_OUTPUT_PIPE so si rIn.connId] } ∧
          (s.add_link o i so si).2.1 =
            [.sent rOut.connId (pipeMsg .ADD_OUTPUT_PIPE so si rIn.connId)]) ∧
      ((s.add_link o i so si).2.2 ≠ none →
        (s.add_link o i so si).1 = s ∧ (s.add_link o i so si).2.1 = [])) ∧
    ((s.remove_link o i so si).1.nodes = s.nodes ∧
      (s.remove_link o i so si).1.running = s.running ∧
      (s.remove_link o i so si).1.nextConn = s.nextConn ∧
      ((s.remove_link o i so si).2.2 = none →
        ∃ c, lookupConn s.conns rOut.connId = some c ∧ c.closed = false ∧
          c.peerDead = false ∧
          (s.remove_link o i so si).1.conns = setConn s.conns rOut.connId
            { c with sent := c.sent ++
              [pipeMsg .REMOVE_OUTPUT_PIPE so si rIn.connId] } ∧
          (s.remove_link o i so si).2.1 =
            [.sent rOut.connId (pipeMsg .REMOVE_OUTPUT_PIPE so si rIn.connId)]) ∧
      ((s.remove_link o i so si).2.2 ≠ none →
        (s.remove_link o i so si).1 = s ∧ (s.remove_link o i so si).2.1 = [])) :=
  ⟨linkOp_frame s .ADD_OUTPUT_PIPE o i so si rOut rIn ho hi rfl,
    linkOp_frame s .REMOVE_OUTPUT_PIPE o i so si rOut rIn ho hi rfl⟩

theorem manager_link_ops_frame_witness :
    ((((initManager.add_node "eeg").2.add_node "psd").2.add_link
        "eeg0" "psd0" "out" "data").1.nodes =
      ((initManager.add_node "eeg").2.add_node "psd").2.nodes) ∧
    ((((initManager.add_node "eeg").2.add_node "psd").2.remove_link
        "eeg0" "psd0" "out" "data").1.nodes =
      ((initManager.add_node "eeg").2.add_node "psd").2.nodes) :=
  ⟨(manager_link_ops_frame ((initManager.add_node "eeg").2.add_node "psd").2
      "eeg0" "psd0" "out" "data" ⟨0⟩ ⟨1⟩ (by decide) (by decide)).1.1,
    (manager_link_ops_frame ((initManager.add_node "eeg").2.add_node "psd").2
      "eeg0" "psd0" "out" "data" ⟨0⟩ ⟨1⟩ (by decide) (by decide)).2.1⟩

theorem lookupConn_mem {l : List (Nat × ConnState)} {i : Nat} {c : ConnState}
    (h : lookupConn l i = some c) : (i, c) ∈ l := by
  induction l with
  | nil => simp [lookupConn] at h
  | cons p rest ih =>
    obtain ⟨k, d⟩ := p
    simp only [lookupConn] at h
    by_cases hk : k = i
    · rw [if_pos hk] at h
      cases h
      subst hk
      exact List.mem_cons_self _ _
    · rw [if_neg hk] at h
      exact List.mem_cons_of_mem _ (ih h)

theorem nodeLive_of_lookup_eq {conns conns' : List (Nat × ConnState)}
    {r : NodeRef} (h : lookupConn conns' r.connId = lookupConn conns r.connId) :
    nodeLive conns' r = nodeLive conns r := by
  unfold nodeLive
  rw [h]

theorem nodeLive_append_right {conns : List (Nat × ConnState)} {r : NodeRef}
    (l' : List (Nat × ConnState)) (h : nodeLive conns r = true) :
    nodeLive (conns ++ l') r = true := by
  unfold nodeLive at h ⊢
  cases hl : lookupConn conns r.connId with
  | none =>
    rw [hl] at h
    cases h
  | some c =>
    rw [lookupConn_append_some hl]
    rw [hl] at h
    exact h

theorem conn_keys_lt {l : List (Nat × ConnState)} {n : Nat}
    (h : ∀ q ∈ l, q.1 < n) (i : Nat) (c : ConnState) :
    ∀ q ∈ setConn l i c, q.1 < n := by
  intro q hq
  have hmem : q.1 ∈ (setConn l i c).map Prod.fst := List.mem_map_of_mem _ hq
  rw [setConn_keys] at hmem
  obtain ⟨q₀, hq₀, he⟩ := List.mem_map.mp hmem
  rw [← he]
  exact h q₀ hq₀

theorem lookupNode_decomp {l : List (String × NodeRef)} {name : String}
    {r : NodeRef} (h : lookupNode l name = some r) :
    ∃ l₁ l₂, l = l₁ ++ (name, r) :: l₂ ∧ removeEntry l name = l₁ ++ l₂ := by
  induction l with
  | nil => simp [lookupNode] at h
  | cons p rest ih =>
    obtain ⟨k, r'⟩ := p
    simp only [lookupNode, removeEntry] at h ⊢
    by_cases hk : k = name
    · rw [if_pos hk] at h
      cases h
      subst hk
      refine ⟨[], rest, (List.nil_append _).symm, ?_⟩
      rw [if_pos rfl]
      exact (List.nil_append _).symm
    · rw [if_neg hk] at h
      obtain ⟨l₁, l₂, heq, hrem⟩ := ih h
      refine ⟨(k, r') :: l₁, l₂, ?_, ?_⟩
      · rw [heq]
        exact (List.cons_append _ _ _).symm
      · rw [if_neg hk, hrem]
        exact (List.cons_append _ _ _).symm

theorem terminateRef_frame (s : ManagerState) (r : NodeRef) :
    (terminateRef s r).nodes = s.nodes ∧ (terminateRef s r).running = s.running ∧
    (terminateRef s r).nextConn = s.nextConn := by
  unfold terminateRef
  cases hl : lookupConn s.conns r.connId with
  | none =>
    simp only [hl]
    exact ⟨trivial, trivial, trivial⟩
  | some c =>
    by_cases hc : c.closed = true
    · simp only [hl, if_pos hc]
      exact ⟨trivial, trivial, trivial⟩
    · simp only [hl, if_neg hc]
      exact ⟨trivial, trivial, trivial⟩

theorem terminateRef_conns_cases (s : ManagerState) (r : NodeRef) :
    (terminateRef s r).conns = s.conns ∨
    ∃ c, (terminateRef s r).conns = setConn s.conns r.connId c := by
  unfold terminateRef
  cases hl : lookupConn s.conns r.connId with
  | none =>
    simp only [hl]
    exact Or.inl trivial
  | some c =>
    by_cases hc : c.closed = true
    · simp only [hl, if_pos hc]
      exact Or.inl trivial
    · simp only [hl, if_neg hc]
      exact Or.inr ⟨_, rfl⟩

theorem terminateRef_lookup_ne (s : ManagerState) (r : NodeRef) {j : Nat}
    (hne : j ≠ r.connId) :
    lookupConn (terminateRef s r).conns j = lookupConn s.conns j := by
  rcases terminateRef_conns_cases s r with h | ⟨c, h⟩
  · rw [h]
  · rw [h]
    exact lookupConn_setConn_ne hne _

theorem mkMessage_ok_eq {t : MessageType} {content : Content} {m : Message}
    (h : mkMessage t content = .ok m) : m = ⟨t, content⟩ := by
  unfold mkMessage at h
  cases hr : require_fields content (requiredFields t) with
  | error e =>
    rw [hr] at h
    cases h
  | ok u =>
    rw [hr] at h
    cases h
    rfl

theorem inv_add_node (s : ManagerState) (name : String) (h : Inv s) :
    Inv (s.add_node name).2 := by
  obtain ⟨h1, h2, h3⟩ := h
  have hnone : lookupConn s.conns s.nextConn = none := by
    cases hl : lookupConn s.conns s.nextConn with
    | none => rfl
    | some c =>
      have := h2 _ (lookupConn_mem hl)
      omega
  have hnodes : (s.add_node name).2.nodes =
      s.nodes ++ [((s.add_node name).1, (⟨s.nextConn⟩ : NodeRef))] := rfl
  have hconns : (s.add_node name).2.conns =
      s.conns ++ [(s.nextConn, ⟨false, [], false⟩)] := rfl
  have hnext : (s.add_node name).2.nextConn = s.nextConn + 1 := rfl
  have hfreshLive : nodeLive (s.add_node name).2.conns (⟨s.nextConn⟩ : NodeRef) = true := by
    unfold nodeLive
    rw [hconns, lookupConn_append_none hnone]
    simp [lookupConn]
  have hidsNew : s.nextConn ∉ s.nodes.map fun p => p.2.connId := by
    intro hmem
    obtain ⟨p, hp, he⟩ := List.mem_map.mp hmem
    have := h1 p hp
    unfold nodeLive at this
    rw [he] at this
    rw [hnone] at this
    cases this
  refine ⟨?_, ?_, ?_⟩
  · intro p hp
    rw [hnodes] at hp
    rcases List.mem_append.mp hp with hp | hp
    · rw [hconns]
      exact nodeLive_append_right _ (h1 p hp)
    · rcases List.mem_singleton.mp hp with rfl
      exact hfreshLive
  · intro q hq
    rw [hconns] at hq
    rw [hnext]
    rcases List.mem_append.mp hq with hq | hq
    · have := h2 q hq
      omega
    · rcases List.mem_singleton.mp hq with rfl
      omega
  · rw [hnodes, List.map_append]
    rw [List.nodup_append]
    refine ⟨h3, List.nodup_singleton _, ?_⟩
    intro a ha hb
    simp only [List.map_cons, List.map_nil, List.mem_singleton] at hb
    rw [hb] at ha
    exact hidsNew ha

theorem inv_remove_node (s : ManagerState) (name : String) (h : Inv s) :
    Inv (s.remove_node name).1 := by
  obtain ⟨h1, h2, h3⟩ := h
  unfold ManagerState.remove_node
  cases hl : lookupNode s.nodes name with
  | none => exact ⟨h1, h2, h3⟩
  | some r =>
    simp only
    obtain ⟨l₁, l₂, heq, hrem⟩ := lookupNode_decomp hl
    have hids : ((l₁ ++ (name, r) :: l₂).map fun p => p.2.connId).Nodup := by
      rw [← heq]
      exact h3
    have hne : ∀ p ∈ l₁ ++ l₂, p.2.connId ≠ r.connId := by
      intro p hp heqid
      have hperm : ((l₁ ++ (name, r) :: l₂).map fun p => p.2.connId).Nodup := hids
      rw [List.map_append, List.map_cons] at hperm
      have hmid := List.nodup_middle.mp hperm
      have hnotmem := (List.nodup_cons.mp hmid).1
      have hpmem : p.2.connId ∈
          (l₁.map fun p => p.2.connId) ++ (l₂.map fun p => p.2.connId) := by
        rw [← List.map_append]
        exact List.mem_map_of_mem _ hp
      rw [heqid] at hpmem
      exact hnotmem hpmem
    refine ⟨?_, ?_, ?_⟩
    · intro p hp
      rw [hrem] at hp
      have hpne : p.2.connId ≠ r.connId := hne p hp
      have hlook : lookupConn (terminateRef s r).conns p.2.connId =
          lookupConn s.conns p.2.connId := terminateRef_lookup_ne s r hpne
      rw [nodeLive_of_lookup_eq hlook]
      refine h1 p ?_
      rw [heq]
      rcases List.mem_append.mp hp with hp' | hp'
      · exact List.mem_append.mpr (Or.inl hp')
      · exact List.mem_append.mpr (Or.inr (List.mem_cons_of_mem _ hp'))
    · intro q hq
      rw [(terminateRef_frame s r).2.2]
      rcases terminateRef_conns_cases s r with hc | ⟨c, hc⟩
      · rw [hc] at hq
        exact h2 q hq
      · rw [hc] at hq
        exact conn_keys_lt h2 _ _ q hq
    · show ((removeEntry s.nodes name).map fun p => p.2.connId).Nodup
      exact h3.sublist ((removeEntry_sublist s.nodes name).map _)

theorem inv_linkOp (s : ManagerState) (t : MessageType) (o i so si : String)
    (h : Inv s) : Inv (s.linkOp t o i so si).1 := by
  obtain ⟨h1, h2, h3⟩ := h
  unfold ManagerState.linkOp
  cases ho : lookupNode s.nodes o with
  | none => exact ⟨h1, h2, h3⟩
  | some rOut =>
    simp only
    cases hi : lookupNode s.nodes i with
    | none => exact ⟨h1, h2, h3⟩
    | some rIn =>
      simp only
      cases hm : mkMessage t
          [("slot_name_out", .str so), ("slot_name_in", .str si),
            ("node_connection", .conn rIn.connId)] with
      | error e => exact ⟨h1, h2, h3⟩
      | ok m =>
        simp only
        cases hs : s.sendOn rOut.connId m with
        | error e => exact ⟨h1, h2, h3⟩
        | ok s' =>
          simp only
          obtain ⟨c, hlc, hcl, hpd, rfl⟩ := sendOn_ok_parts hs
          have hmne : m ≠ termMsg := by
            rw [mkMessage_ok_eq hm]
            intro hcontra
            cases hcontra
          refine ⟨?_, ?_, h3⟩
          · intro p hp
            by_cases hne : p.2.connId = rOut.connId
            · have hlive := h1 p hp
              unfold nodeLive at hlive ⊢
              rw [hne] at hlive ⊢
              rw [hlc] at hlive
              show (match lookupConn (setConn s.conns rOut.connId
                { c with sent := c.sent ++ [m] }) rOut.connId with
                | some c => !c.closed && !(c.sent.any fun x => decide (x = termMsg))
                | none => false) = true
              rw [lookupConn_setConn_self hlc]
              simp only [Bool.and_eq_true, Bool.not_eq_true'] at hlive ⊢
              refine ⟨hlive.1, ?_⟩
              rw [List.any_append, hlive.2]
              simp [hmne]
            · have hlook : lookupConn (setConn s.conns rOut.connId
                  { c with sent := c.sent ++ [m] }) p.2.connId =
                  lookupConn s.conns p.2.connId := lookupConn_setConn_ne hne _
              show nodeLive (setConn s.conns rOut.connId
                { c with sent := c.sent ++ [m] }) p.2 = true
              rw [nodeLive_of_lookup_eq hlook]
              exact h1 p hp
          · intro q hq
            exact conn_keys_lt h2 _ _ q hq

theorem inv_applyOp (s : ManagerState) (op : Op) (h : Inv s) :
    Inv (applyOp s op) := by
  cases op with
  | addNode n => exact inv_add_node s n h
  | removeNode n => exact inv_remove_node s n h
  | addLink o i so si => exact inv_linkOp s .ADD_OUTPUT_PIPE o i so si h
  | removeLink o i so si => exact inv_linkOp s .REMOVE_OUTPUT_PIPE o i so si h

theorem inv_runOps (ops : List Op) :
    ∀ s : ManagerState, Inv s → Inv (runOps s ops) := by
  induction ops with
  | nil => intro s h; exact h
  | cons op rest ih =>
    intro s h
    exact ih (applyOp s op) (inv_applyOp s op h)

theorem inv_init : Inv initManager := by
  refine ⟨?_, ?_, ?_⟩
  · intro p hp
    cases hp
  · intro q hq
    cases hq
  · exact List.nodup_nil

/-- C6 counterexample: `Manager.terminate()` breaks the live-reference
invariant — after it completes, the key `"eeg0"` is still in the container
although its node has been terminated (its control Link is closed and was
sent `TERMINATE`). -/
theorem container_live_invariant_counterexample :
    ((initManager.add_node "eeg").2.terminate).2.2 = none ∧
    "eeg0" ∈ ((initManager.add_node "eeg").2.terminate).1.nodes.map Prod.fst ∧
    liveInv ((initManager.add_node "eeg").2.terminate).1 = false := by
  decide

/-- C6 (amended): in every state reachable from a fresh headless Manager by
sequences of `add_node`, `remove_node`, `add_link` and `remove_link`, every
key in the container refers to a live node (control Link open, never sent
`TERMINATE`); keys disappear only through removal, which terminates the
node.  `Manager.terminate()`, however, violates the invariant: it
terminates every node but leaves all keys in the container. -/
theorem container_live_invariant (ops : List Op) :
    liveInv (runOps initManager ops) = true := by
  have h := inv_runOps ops initManager inv_init
  unfold liveInv
  rw [List.all_eq_true]
  intro p hp
  exact h.1 p hp

end Goofi
